import Mathlib

/-!
# A shallow embedding of the `bbow` crate (Big Bag Of Words)

This file embeds `src/lib.rs` of the bag-of-words crate. Characters are
modelled by their Unicode code points (`Nat`). The classification and
case-mapping functions of the Rust standard library are modelled as
follows: `char::is_whitespace` is the complete Unicode `White_Space`
property (all 25 code points); `char::is_alphabetic`, `char::is_uppercase`,
`char::is_lowercase` and `str::to_lowercase` are modelled faithfully, per
the Unicode character database, on a fragment that contains every kind of
character the case behaviour of the program distinguishes: ASCII, the
Latin-1 letters (including `ï`/`Ï` of the crate doc's example `untïl`, and
excluding `×` and `÷`), the digraph triple `Ǆ` U+01C4 (uppercase) /
`ǅ` U+01C5 (titlecase: alphabetic but neither uppercase nor lowercase) /
`ǆ` U+01C6 (lowercase), the dotted `İ` U+0130 whose Unicode lowercase
mapping is the two code points `i` U+0069 followed by combining dot above
U+0307 (not a letter), and the caseless CJK Unified Ideographs
U+4E00..U+9FFF. Code points outside this fragment are classified as
non-letters; the fragment is rich enough that every classification a claim
depends on is exercised by a modelled character with exactly its real
Unicode properties. Texts and stored tokens are lists of code points.

The `BTreeMap<Cow<str>, usize>` is embedded as an association list kept
strictly sorted by byte/code-point lexicographic key order (UTF-8 byte
order and code-point order agree), which is exactly the observable
behaviour of a `BTreeMap`: ordered iteration and key lookup.
-/

set_option maxRecDepth 8000

/-- Rust `char::is_whitespace`: the complete Unicode `White_Space`
property. Code points: 9..13 (tab, LF, VT, FF, CR), 32 (space),
133 (NEL U+0085), 160 (NBSP U+00A0), 5760 (U+1680),
8192..8202 (U+2000..U+200A), 8232 (U+2028), 8233 (U+2029),
8239 (U+202F), 8287 (U+205F), 12288 (U+3000). -/
def is_whitespace_char (c : Nat) : Bool :=
  (9 ≤ c && c ≤ 13) || c = 32 || c = 133 || c = 160 || c = 5760 ||
  (8192 ≤ c && c ≤ 8202) || c = 8232 || c = 8233 || c = 8239 || c = 8287 ||
  c = 12288

/-- Rust `char::is_uppercase` (the Unicode `Uppercase` property) on the
modelled fragment: A..Z (65..90), the Latin-1 uppercase letters
À..Ö (192..214) and Ø..Þ (216..222), dotted İ U+0130 (304), and
Ǆ U+01C4 (452). The titlecase ǅ U+01C5 is NOT uppercase. -/
def is_uppercase_char (c : Nat) : Bool :=
  (65 ≤ c && c ≤ 90) || (192 ≤ c && c ≤ 214) || (216 ≤ c && c ≤ 222) ||
  c = 304 || c = 452

/-- Rust `char::is_lowercase` (the Unicode `Lowercase` property) on the
modelled fragment: a..z (97..122), the Latin-1 lowercase letters
ß..ö (223..246) and ø..ÿ (248..255), and ǆ U+01C6 (454). Titlecase and
caseless letters (ǅ U+01C5, the CJK ideographs) are NOT lowercase. -/
def is_lowercase_char (c : Nat) : Bool :=
  (97 ≤ c && c ≤ 122) || (223 ≤ c && c ≤ 246) || (248 ≤ c && c ≤ 255) ||
  c = 454

/-- Rust `char::is_alphabetic` (the Unicode `Alphabetic` property) on the
modelled fragment: the uppercase and lowercase letters above, the
titlecase ǅ U+01C5 (453), and the caseless CJK Unified Ideographs
U+4E00..U+9FFF (19968..40959). The combining dot above U+0307 (775) is
NOT alphabetic. -/
def is_alphabetic_char (c : Nat) : Bool :=
  is_uppercase_char c || is_lowercase_char c || c = 453 ||
  (19968 ≤ c && c ≤ 40959)

/-- The full (one-to-many) Unicode lowercase mapping of a single
character, as used char-wise by Rust `str::to_lowercase`, on the modelled
fragment: A..Z and the Latin-1 uppercase letters move down by 32
(`À` 192 ↦ `à` 224, ...), `İ` 304 maps to `i` 105 followed by combining
dot above 775 (the SpecialCasing.txt mapping Rust implements), and
`Ǆ` 452 and `ǅ` 453 both map to `ǆ` 454; every other modelled character
(lowercase, titlecase-free caseless, punctuation, ...) maps to itself. The
final-sigma special case of `str::to_lowercase` involves no modelled
character. -/
def to_lowercase_char (c : Nat) : List Nat :=
  if (65 ≤ c && c ≤ 90) || (192 ≤ c && c ≤ 214) || (216 ≤ c && c ≤ 222) then [c + 32]
  else if c = 304 then [105, 775]
  else if c = 452 || c = 453 then [454]
  else [c]

/-- Bridge from Lean string literals to texts (lists of code points). -/
def text (s : String) : List Nat :=
  s.data.map Char.toNat

/-- Helper for `split_whitespace`: `acc` holds the (reversed) current
non-whitespace run. -/
def split_whitespace_aux : List Nat → List Nat → List (List Nat)
  | [], acc => if acc.isEmpty then [] else [acc.reverse]
  | c :: rest, acc =>
    if is_whitespace_char c then
      if acc.isEmpty then split_whitespace_aux rest []
      else acc.reverse :: split_whitespace_aux rest []
    else split_whitespace_aux rest (c :: acc)

/-- Rust `str::split_whitespace`: split on runs of whitespace, producing no
empty fragments. -/
def split_whitespace (s : List Nat) : List (List Nat) :=
  split_whitespace_aux s []

/-- Rust `str::trim_end_matches` with a single-character pattern: remove all
trailing occurrences of `p`. -/
def trim_end_matches (p : Nat) (s : List Nat) : List Nat :=
  (s.reverse.dropWhile (fun c => c = p)).reverse

/-- Rust `str::trim_start_matches` with a single-character pattern: remove
all leading occurrences of `p`. -/
def trim_start_matches (p : Nat) (s : List Nat) : List Nat :=
  s.dropWhile (fun c => c = p)

/-- The `punctuation` array of `extend_from_text`, in source order:
`!` 33, `.` 46, `,` 44, `?` 63, `/` 47, `;` 59, `:` 58, apostrophe 39. -/
def punctChars : List Nat :=
  [33, 46, 44, 63, 47, 59, 58, 39]

/-- The trimming loop of `extend_from_text`: for each punctuation character
in the order of the `punctuation` array, trim all its trailing occurrences,
then all its leading occurrences. -/
def strip_punct (s : List Nat) : List Nat :=
  punctChars.foldl (fun part p => trim_start_matches p (trim_end_matches p part)) s

/-- Model of `fn is_word`: non-empty and every character alphabetic. -/
def is_word (w : List Nat) : Bool :=
  !w.isEmpty && w.all is_alphabetic_char

/-- Model of `fn has_uppercase`: some character is uppercase. -/
def has_uppercase (w : List Nat) : Bool :=
  w.any is_uppercase_char

/-- Rust `str::to_lowercase`: the concatenation of the character-wise
full lowercase mappings. -/
def to_lowercase : List Nat → List Nat
  | [] => []
  | c :: cs => to_lowercase_char c ++ to_lowercase cs

/-- Strict byte/code-point lexicographic order on keys: the `Ord` instance
of Rust `str` (UTF-8 byte order equals code-point order), which drives the
`BTreeMap`. -/
def ltKey : List Nat → List Nat → Bool
  | [], [] => false
  | [], _ :: _ => true
  | _ :: _, [] => false
  | a :: as, b :: bs =>
    if a < b then true
    else if b < a then false
    else ltKey as bs

/-- Key lookup in the association list (`BTreeMap::get`; on a list with
unique keys, first-match linear search agrees with tree search). -/
def lookupKey : List (List Nat × Nat) → List Nat → Option Nat
  | [], _ => none
  | (k2, n) :: rest, k => if k = k2 then some n else lookupKey rest k

/-- Lookup defaulting to 0 for absent keys (the count a key conceptually
has before it is stored). -/
def lookupCount (m : List (List Nat × Nat)) (k : List Nat) : Nat :=
  (lookupKey m k).getD 0

/-- Model of `self.0.entry(k).and_modify(|curr| *curr += 1).or_insert(1)` on the
sorted association list: bump the count of `k`, inserting it with count 1
at its ordered position when absent. -/
def insertWord : List (List Nat × Nat) → List Nat → List (List Nat × Nat)
  | [], k => [(k, 1)]
  | (k2, n) :: rest, k =>
    if ltKey k k2 then (k, 1) :: (k2, n) :: rest
    else if k = k2 then (k2, n + 1) :: rest
    else (k2, n) :: insertWord rest k

/-- Model of `pub struct Bbow<'a>(BTreeMap<Cow<'a, str>, usize>)`. -/
structure Bbow where
  counts : List (List Nat × Nat)
deriving DecidableEq

/-- Model of `Bbow::new()`: the empty bag. -/
def Bbow.new : Bbow := ⟨[]⟩

/-- The body of the `for parts in string_parts` loop of
`extend_from_text`: trim punctuation, and if the result is a word, insert
it (lowercased when it contains an uppercase letter). -/
def processPart (b : Bbow) (parts : List Nat) : Bbow :=
  let part := strip_punct parts
  if is_word part then
    if has_uppercase part then ⟨insertWord b.counts (to_lowercase part)⟩
    else ⟨insertWord b.counts part⟩
  else b

/-- Model of `Bbow::extend_from_text`: split the target on whitespace and process
each fragment in order. -/
def Bbow.extend_from_text (b : Bbow) (target : List Nat) : Bbow :=
  (split_whitespace target).foldl processPart b

/-- Model of `Bbow::match_count`: the source is `self.0[keyword]`, `BTreeMap`
indexing, which returns the stored count for a present key and panics for
an absent key; the panic is modelled by `none`. -/
def Bbow.match_count (b : Bbow) (keyword : List Nat) : Option Nat :=
  lookupKey b.counts keyword

/-- Model of `Bbow::words`: the keys, in the map's ascending order. -/
def Bbow.words (b : Bbow) : List (List Nat) :=
  b.counts.map Prod.fst

/-- Model of `Bbow::count`: the sum of the stored values (the returned `total`). -/
def Bbow.count (b : Bbow) : Nat :=
  (b.counts.map Prod.snd).sum

/-- The console output of `Bbow::count`: its loop executes
`println!("{}", value)` for every stored value, so the printed trace is the
list of stored values in order. -/
def Bbow.count_printed (b : Bbow) : List Nat :=
  b.counts.map Prod.snd

/-- Model of `Bbow::len`: the number of stored keys. -/
def Bbow.len (b : Bbow) : Nat :=
  b.counts.length

/-- Model of `Bbow::is_empty`. -/
def Bbow.is_empty (b : Bbow) : Bool :=
  b.counts.isEmpty

/-- The storage key chosen for a qualifying word: lowercased when it
contains an uppercase letter, verbatim otherwise. -/
def normalize_word (w : List Nat) : List Nat :=
  if has_uppercase w then to_lowercase w else w

/-- The storage keys produced by a list of whitespace-split fragments:
fragments whose trimmed form is a word, normalized; the rest dropped. -/
def tokensOfParts : List (List Nat) → List (List Nat)
  | [] => []
  | p :: ps =>
    if is_word (strip_punct p) then normalize_word (strip_punct p) :: tokensOfParts ps
    else tokensOfParts ps

/-- The sequence of storage keys a text contributes, in text order. -/
def tokens (target : List Nat) : List (List Nat) :=
  tokensOfParts (split_whitespace target)

/-- The number of qualifying word-fragments of a text (repeats included). -/
def qualifying_count (target : List Nat) : Nat :=
  ((split_whitespace target).filter fun parts => is_word (strip_punct parts)).length

/-- Number of occurrences of a key in a list of keys. -/
def occCount : List (List Nat) → List Nat → Nat
  | [], _ => 0
  | x :: xs, k => (if x = k then 1 else 0) + occCount xs k

/-- Folding a whole key sequence into the map. -/
def insertAll (m : List (List Nat × Nat)) (ks : List (List Nat)) : List (List Nat × Nat) :=
  ks.foldl insertWord m

/-- The bags reachable through the public constructors: `new()` followed by
any sequence of `extend_from_text` calls. -/
inductive Reachable : Bbow → Prop
  | new : Reachable Bbow.new
  | extend (b : Bbow) (t : List Nat) : Reachable b → Reachable (b.extend_from_text t)

/-- The map's keys are strictly ascending (hence unique). -/
def SortedKeys (m : List (List Nat × Nat)) : Prop :=
  m.Pairwise fun e1 e2 => ltKey e1.1 e2.1 = true

/-- The shape every stored key has: non-empty and containing no uppercase
character. (Stronger shapes fail on the real program: caseless and
titlecase letters are stored verbatim without being lowercase, and
lowercasing `İ` introduces the non-letter combining dot above — see the
counterexample to claim C3.) -/
def KeyOk (k : List Nat) : Prop :=
  k ≠ [] ∧ k.all (fun c => !is_uppercase_char c) = true

/-- The representation invariant of a bag: sorted keys, well-formed keys,
strictly positive counts. -/
def BagInv (b : Bbow) : Prop :=
  SortedKeys b.counts ∧ ∀ e ∈ b.counts, KeyOk e.1 ∧ 1 ≤ e.2


/-! ## Lemmas about the key order -/

theorem ltKey_irrefl (a : List Nat) : ltKey a a = false := by
  induction a with
  | nil => rfl
  | cons x xs ih => simp [ltKey, ih]

theorem ltKey_ne {a b : List Nat} (h : ltKey a b = true) : a ≠ b := by
  intro he
  subst he
  rw [ltKey_irrefl] at h
  exact Bool.false_ne_true h

theorem ltKey_trans (a : List Nat) :
    ∀ b c, ltKey a b = true → ltKey b c = true → ltKey a c = true := by
  induction a with
  | nil =>
    intro b c h1 h2
    cases b with
    | nil => simp [ltKey] at h1
    | cons y ys =>
      cases c with
      | nil => simp [ltKey] at h2
      | cons z zs => rfl
  | cons x xs ih =>
    intro b c h1 h2
    cases b with
    | nil => simp [ltKey] at h1
    | cons y ys =>
      cases c with
      | nil => simp [ltKey] at h2
      | cons z zs =>
        simp only [ltKey] at h1 h2 ⊢
        by_cases hxy : x < y
        · by_cases hyz : y < z
          · simp [Nat.lt_trans hxy hyz]
          · rw [if_neg hyz] at h2
            by_cases hzy : z < y
            · rw [if_pos hzy] at h2
              exact absurd h2 Bool.false_ne_true
            · have : y = z := Nat.le_antisymm (Nat.not_lt.mp hzy) (Nat.not_lt.mp hyz)
              subst this
              simp [hxy]
        · rw [if_neg hxy] at h1
          by_cases hyx : y < x
          · rw [if_pos hyx] at h1
            exact absurd h1 Bool.false_ne_true
          · rw [if_neg hyx] at h1
            have : x = y := Nat.le_antisymm (Nat.not_lt.mp hyx) (Nat.not_lt.mp hxy)
            subst this
            by_cases hxz : x < z
            · simp [hxz]
            · rw [if_neg hxz] at h2 ⊢
              by_cases hzx : z < x
              · rw [if_pos hzx] at h2
                exact absurd h2 Bool.false_ne_true
              · rw [if_neg hzx] at h2 ⊢
                exact ih ys zs h1 h2

theorem ltKey_connex (a : List Nat) :
    ∀ b, ltKey a b = false → ltKey b a = false → a = b := by
  induction a with
  | nil =>
    intro b h1 _
    cases b with
    | nil => rfl
    | cons y ys => simp [ltKey] at h1
  | cons x xs ih =>
    intro b h1 h2
    cases b with
    | nil => simp [ltKey] at h2
    | cons y ys =>
      simp only [ltKey] at h1 h2
      by_cases hxy : x < y
      · rw [if_pos hxy] at h1
        exact absurd h1 (by simp)
      · by_cases hyx : y < x
        · rw [if_pos hyx] at h2
          exact absurd h2 (by simp)
        · rw [if_neg hxy, if_neg hyx] at h1
          rw [if_neg hyx, if_neg hxy] at h2
          have hx : x = y := Nat.le_antisymm (Nat.not_lt.mp hyx) (Nat.not_lt.mp hxy)
          rw [hx, ih ys h1 h2]

/-! ## Lemmas about lookup and insertion -/

theorem lookupKey_eq_none (m : List (List Nat × Nat)) (k : List Nat)
    (h : ∀ e ∈ m, k ≠ e.1) : lookupKey m k = none := by
  induction m with
  | nil => rfl
  | cons e rest ih =>
    obtain ⟨k2, n⟩ := e
    simp only [lookupKey]
    rw [if_neg (h (k2, n) (by simp))]
    exact ih fun e he => h e (by simp [he])

theorem lookupKey_mem {m : List (List Nat × Nat)} {k : List Nat} {n : Nat}
    (h : lookupKey m k = some n) : (k, n) ∈ m := by
  induction m with
  | nil => simp [lookupKey] at h
  | cons e rest ih =>
    obtain ⟨k2, n2⟩ := e
    simp only [lookupKey] at h
    by_cases hk : k = k2
    · rw [if_pos hk] at h
      have : n2 = n := Option.some.inj h
      subst this
      subst hk
      exact List.mem_cons_self _ _
    · rw [if_neg hk] at h
      exact List.mem_cons_of_mem _ (ih h)

theorem lookupKey_isSome {m : List (List Nat × Nat)} {k : List Nat}
    (h : k ∈ m.map Prod.fst) : ∃ n, lookupKey m k = some n := by
  induction m with
  | nil => simp at h
  | cons e rest ih =>
    obtain ⟨k2, n2⟩ := e
    by_cases hk : k = k2
    · exact ⟨n2, by simp [lookupKey, hk]⟩
    · simp only [List.map_cons, List.mem_cons] at h
      rcases h with h | h
    
      · exact absurd h hk
      · obtain ⟨n, hn⟩ := ih h
        exact ⟨n, by simp [lookupKey, hk, hn]⟩

theorem mem_insertWord_fst (m : List (List Nat × Nat)) (k : List Nat) :
    ∀ e ∈ insertWord m k, e.1 ∈ m.map Prod.fst ∨ e.1 = k := by
  induction m with
  | nil =>
    intro e he
    simp only [insertWord, List.mem_singleton] at he
    subst he
    exact Or.inr rfl
  | cons e2 rest ih =>
    obtain ⟨k2, n⟩ := e2
    intro e he
    simp only [insertWord] at he
    split_ifs at he with h1 h2
    · rcases List.mem_cons.mp he with h | h
      · subst h
        exact Or.inr rfl
      · exact Or.inl (List.mem_map_of_mem Prod.fst h)
    · rcases List.mem_cons.mp he with h | h
      · subst h
        exact Or.inl (by simp)
      · exact Or.inl (by
          simp only [List.map_cons, List.mem_cons]
          exact Or.inr (List.mem_map_of_mem Prod.fst h))
    · rcases List.mem_cons.mp he with h | h
      · subst h
        exact Or.inl (by simp)
      · rcases ih e h with h3 | h3
        · exact Or.inl (by simp [List.mem_map] at h3 ⊢; tauto)
        · exact Or.inr h3

theorem insertWord_inv (P : List Nat → Prop) (m : List (List Nat × Nat)) (k : List Nat)
    (hm : ∀ e ∈ m, P e.1 ∧ 1 ≤ e.2) (hk : P k) :
    ∀ e ∈ insertWord m k, P e.1 ∧ 1 ≤ e.2 := by
  induction m with
  | nil =>
    intro e he
    simp only [insertWord, List.mem_singleton] at he
    subst he
    exact ⟨hk, le_refl 1⟩
  | cons e2 rest ih =>
    obtain ⟨k2, n⟩ := e2
    intro e he
    simp only [insertWord] at he
    split_ifs at he with h1 h2
    · rcases List.mem_cons.mp he with h | h
      · subst h
        exact ⟨hk, le_refl 1⟩
      · exact hm e h
    · rcases List.mem_cons.mp he with h | h
      · subst h
        have := hm (k2, n) (List.mem_cons_self _ _)
        exact ⟨this.1, by omega⟩
      · exact hm e (List.mem_cons_of_mem _ h)
    · rcases List.mem_cons.mp he with h | h
      · subst h
        exact hm (k2, n) (List.mem_cons_self _ _)
      · exact ih (fun e2 he2 => hm e2 (List.mem_cons_of_mem _ he2)) e h

theorem sorted_insertWord (m : List (List Nat × Nat)) (k : List Nat)
    (hs : SortedKeys m) : SortedKeys (insertWord m k) := by
  induction m with
  | nil =>
    simp [insertWord, SortedKeys]
  | cons e2 rest ih =>
    obtain ⟨k2, n⟩ := e2
    rw [SortedKeys, List.pairwise_cons] at hs
    obtain ⟨hs1, hs2⟩ := hs
    simp only [insertWord]
    split_ifs with h1 h2
    · rw [SortedKeys, List.pairwise_cons]
      refine ⟨?_, ?_⟩
      · intro e he
        rcases List.mem_cons.mp he with h | h
        · subst h
          exact h1
        · exact ltKey_trans k k2 e.1 h1 (hs1 e h)
      · rw [List.pairwise_cons]
        exact ⟨hs1, hs2⟩
    · rw [SortedKeys, List.pairwise_cons]
      exact ⟨hs1, hs2⟩
    · rw [SortedKeys, List.pairwise_cons]
      refine ⟨?_, ih hs2⟩
      intro e he
      rcases mem_insertWord_fst rest k e he with h3 | h3
      · obtain ⟨e2, he2, heq⟩ := List.mem_map.mp h3
        rw [← heq]
        exact hs1 e2 he2
      · rw [h3]
        cases hlt : ltKey k2 k with
        | true => rfl
        | false =>
          exfalso
          have hkk2 : ltKey k k2 = false := by
            cases h : ltKey k k2 with
            | true => exact absurd h h1
            | false => rfl
          exact h2 (ltKey_connex k k2 hkk2 hlt)

theorem lookupKey_insertWord_self (m : List (List Nat × Nat)) (k : List Nat)
    (hs : SortedKeys m) : lookupKey (insertWord m k) k = some (lookupCount m k + 1) := by
  induction m with
  | nil => simp [insertWord, lookupKey, lookupCount]
  | cons e2 rest ih =>
    obtain ⟨k2, n⟩ := e2
    rw [SortedKeys, List.pairwise_cons] at hs
    obtain ⟨hs1, hs2⟩ := hs
    simp only [insertWord]
    split_ifs with h1 h2
    · have hne : k ≠ k2 := ltKey_ne h1
      have hnone : lookupKey rest k = none := by
        apply lookupKey_eq_none
        intro e he
        exact ltKey_ne (ltKey_trans k k2 e.1 h1 (hs1 e he))
      simp [lookupKey, lookupCount, hne, hnone]
    · subst h2
      simp [lookupKey, lookupCount]
    · have hne : k ≠ k2 := h2
      simp only [lookupKey, lookupCount, if_neg hne]
      rw [ih hs2]
      rfl

theorem lookupKey_insertWord_other (m : List (List Nat × Nat)) (k k2 : List Nat)
    (hne : k2 ≠ k) : lookupKey (insertWord m k) k2 = lookupKey m k2 := by
  induction m with
  | nil => simp [insertWord, lookupKey, hne]
  | cons e3 rest ih =>
    obtain ⟨k3, n⟩ := e3
    simp only [insertWord]
    split_ifs with h1 h2
    · simp [lookupKey, hne]
    · subst h2
      by_cases h3 : k2 = k
      · exact absurd h3 hne
      · simp [lookupKey, h3]
    · by_cases h3 : k2 = k3
      · simp [lookupKey, h3]
      · simp only [lookupKey, if_neg h3]
        exact ih

theorem sum_insertWord (m : List (List Nat × Nat)) (k : List Nat) :
    ((insertWord m k).map Prod.snd).sum = (m.map Prod.snd).sum + 1 := by
  induction m with
  | nil => simp [insertWord]
  | cons e2 rest ih =>
    obtain ⟨k2, n⟩ := e2
    simp only [insertWord]
    split_ifs with h1 h2
    · simp [List.sum_cons]
      omega
    · simp [List.sum_cons]
      omega
    · simp [List.sum_cons, ih]
      omega

theorem keys_insertWord (m : List (List Nat × Nat)) (k k2 : List Nat) :
    k2 ∈ (insertWord m k).map Prod.fst ↔ k2 ∈ m.map Prod.fst ∨ k2 = k := by
  induction m with
  | nil => simp [insertWord, eq_comm]
  | cons e3 rest ih =>
    obtain ⟨k3, n⟩ := e3
    simp only [insertWord]
    split_ifs with h1 h2
    · simp [eq_comm]
      tauto
    · subst h2
      simp [eq_comm]
      tauto
    · simp only [List.map_cons, List.mem_cons, ih]
      tauto

theorem length_insertWord_mem (m : List (List Nat × Nat)) (k : List Nat)
    (hs : SortedKeys m) (hmem : k ∈ m.map Prod.fst) :
    (insertWord m k).length = m.length := by
  induction m with
  | nil => simp at hmem
  | cons e2 rest ih =>
    obtain ⟨k2, n⟩ := e2
    rw [SortedKeys, List.pairwise_cons] at hs
    obtain ⟨hs1, hs2⟩ := hs
    simp only [List.map_cons, List.mem_cons] at hmem
    simp only [insertWord]
    split_ifs with h1 h2
    · exfalso
      rcases hmem with h | h
      · exact ltKey_ne h1 h
      · obtain ⟨e, he, heq⟩ := List.mem_map.mp h
        have h3 : ltKey k2 k = true := by
          rw [← heq]
          exact hs1 e he
        have h4 : ltKey k k = true := ltKey_trans k k2 k h1 h3
        rw [ltKey_irrefl] at h4
        exact Bool.false_ne_true h4
    · simp
    · rcases hmem with h | h
      · exact absurd h h2
      · simp [ih hs2 h]

/-! ## Lemmas about folding whole token sequences -/

theorem insertAll_cons (m : List (List Nat × Nat)) (x : List Nat) (xs : List (List Nat)) :
    insertAll m (x :: xs) = insertAll (insertWord m x) xs := rfl

theorem sorted_insertAll (ks : List (List Nat)) (m : List (List Nat × Nat))
    (hs : SortedKeys m) : SortedKeys (insertAll m ks) := by
  induction ks generalizing m with
  | nil => exact hs
  | cons x xs ih =>
    rw [insertAll_cons]
    exact ih _ (sorted_insertWord m x hs)

theorem insertAll_inv (P : List Nat → Prop) (ks : List (List Nat))
    (m : List (List Nat × Nat))
    (hm : ∀ e ∈ m, P e.1 ∧ 1 ≤ e.2) (hks : ∀ x ∈ ks, P x) :
    ∀ e ∈ insertAll m ks, P e.1 ∧ 1 ≤ e.2 := by
  induction ks generalizing m with
  | nil => exact hm
  | cons x xs ih =>
    rw [insertAll_cons]
    exact ih _ (insertWord_inv P m x hm (hks x (by simp)))
      fun y hy => hks y (by simp [hy])

theorem lookupCount_insertAll (ks : List (List Nat)) (m : List (List Nat × Nat))
    (k : List Nat) (hs : SortedKeys m) :
    lookupCount (insertAll m ks) k = lookupCount m k + occCount ks k := by
  induction ks generalizing m with
  | nil => simp [insertAll, occCount]
  | cons x xs ih =>
    rw [insertAll_cons, ih _ (sorted_insertWord m x hs)]
    have hstep : lookupCount (insertWord m x) k
        = lookupCount m k + (if x = k then 1 else 0) := by
      by_cases hk : k = x
      · subst hk
        simp only [lookupCount, lookupKey_insertWord_self m k hs, if_pos rfl]
        rfl
      · rw [lookupCount, lookupKey_insertWord_other m x k hk,
          if_neg fun h => hk h.symm]
        rfl
    rw [hstep, occCount]
    omega

theorem sum_insertAll (ks : List (List Nat)) (m : List (List Nat × Nat)) :
    ((insertAll m ks).map Prod.snd).sum = (m.map Prod.snd).sum + ks.length := by
  induction ks generalizing m with
  | nil => simp [insertAll]
  | cons x xs ih =>
    rw [insertAll_cons, ih, sum_insertWord]
    simp [List.length_cons]
    omega

theorem keys_insertAll (ks : List (List Nat)) (m : List (List Nat × Nat)) (k : List Nat) :
    k ∈ (insertAll m ks).map Prod.fst ↔ k ∈ m.map Prod.fst ∨ k ∈ ks := by
  induction ks generalizing m with
  | nil => simp [insertAll]
  | cons x xs ih =>
    rw [insertAll_cons, ih, keys_insertWord]
    simp [List.mem_cons]
    tauto

theorem length_insertAll_mem (ks : List (List Nat)) (m : List (List Nat × Nat))
    (hs : SortedKeys m) (hks : ∀ x ∈ ks, x ∈ m.map Prod.fst) :
    (insertAll m ks).length = m.length := by
  induction ks generalizing m with
  | nil => rfl
  | cons x xs ih =>
    rw [insertAll_cons]
    have hx : x ∈ m.map Prod.fst := hks x (by simp)
    rw [ih _ (sorted_insertWord m x hs), length_insertWord_mem m x hs hx]
    intro y hy
    rw [keys_insertWord]
    exact Or.inl (hks y (by simp [hy]))

/-! ## The bridge from `extend_from_text` to token sequences -/

theorem processPart_eq (b : Bbow) (p : List Nat) :
    processPart b p =
      if is_word (strip_punct p) then ⟨insertWord b.counts (normalize_word (strip_punct p))⟩
      else b := by
  simp only [processPart, normalize_word]
  by_cases hw : is_word (strip_punct p) = true
  · by_cases hu : has_uppercase (strip_punct p) = true
    · simp [hw, hu]
    · simp [hw, hu]
  · simp [hw]

theorem foldl_processPart (ps : List (List Nat)) (b : Bbow) :
    ps.foldl processPart b = ⟨insertAll b.counts (tokensOfParts ps)⟩ := by
  induction ps generalizing b with
  | nil => rfl
  | cons p ps ih =>
    rw [List.foldl_cons, processPart_eq]
    by_cases hw : is_word (strip_punct p) = true
    · rw [if_pos hw, ih]
      simp only [tokensOfParts, if_pos hw, insertAll_cons]
    · rw [if_neg hw, ih]
      simp only [tokensOfParts, if_neg hw]

theorem extend_eq_insertAll (b : Bbow) (t : List Nat) :
    b.extend_from_text t = ⟨insertAll b.counts (tokens t)⟩ :=
  foldl_processPart (split_whitespace t) b

theorem tokensOfParts_length (ps : List (List Nat)) :
    (tokensOfParts ps).length = (ps.filter fun p => is_word (strip_punct p)).length := by
  induction ps with
  | nil => rfl
  | cons p ps ih =>
    by_cases hw : is_word (strip_punct p) = true
    · simp only [tokensOfParts, if_pos hw, List.length_cons, List.filter_cons, hw,
        if_pos trivial, ih]
    · simp only [Bool.not_eq_true] at hw
      simp only [tokensOfParts, hw, if_neg Bool.false_ne_true, ih, List.filter_cons]

theorem tokens_length (t : List Nat) : (tokens t).length = qualifying_count t :=
  tokensOfParts_length (split_whitespace t)

/-! ## Well-formedness of stored keys -/

theorem to_lowercase_char_ne_nil (c : Nat) : to_lowercase_char c ≠ [] := by
  rw [to_lowercase_char]
  split_ifs <;> simp

theorem to_lowercase_char_not_upper (c : Nat) :
    ∀ d ∈ to_lowercase_char c, is_uppercase_char d = false := by
  intro d hd
  rw [to_lowercase_char] at hd
  split_ifs at hd with h1 h2 h3
  · simp only [List.mem_singleton] at hd
    simp only [Bool.or_eq_true, Bool.and_eq_true, decide_eq_true_eq] at h1
    simp only [is_uppercase_char, Bool.or_eq_false_iff, Bool.and_eq_false_iff,
      decide_eq_false_iff_not]
    omega
  · simp only [List.mem_cons, List.mem_singleton, List.not_mem_nil, or_false] at hd
    rcases hd with hd | hd <;> rw [hd] <;> decide
  · simp only [List.mem_singleton] at hd
    rw [hd]
    decide
  · simp only [List.mem_singleton] at hd
    subst hd
    simp only [Bool.or_eq_true, Bool.and_eq_true, decide_eq_true_eq, not_or] at h1 h2 h3
    simp only [is_uppercase_char, Bool.or_eq_false_iff, Bool.and_eq_false_iff,
      decide_eq_false_iff_not]
    omega

theorem to_lowercase_ne_nil {w : List Nat} (hne : w ≠ []) : to_lowercase w ≠ [] := by
  cases w with
  | nil => exact absurd rfl hne
  | cons c cs =>
    rw [to_lowercase]
    intro h
    exact to_lowercase_char_ne_nil c (List.append_eq_nil.mp h).1

theorem to_lowercase_not_upper (w : List Nat) :
    (to_lowercase w).all (fun c => !is_uppercase_char c) = true := by
  induction w with
  | nil => rfl
  | cons c cs ih =>
    rw [to_lowercase, List.all_append, ih, Bool.and_true]
    exact List.all_eq_true.mpr fun d hd => by
      simp [to_lowercase_char_not_upper c d hd]

theorem normalize_word_ok {w : List Nat} (hw : is_word w = true) :
    KeyOk (normalize_word w) := by
  have hcomp : w.isEmpty = false ∧ w.all is_alphabetic_char = true := by
    simpa [is_word, Bool.and_eq_true, Bool.not_eq_true'] using hw
  have hne : w ≠ [] := by
    intro he
    subst he
    simp at hcomp
  rw [KeyOk, normalize_word]
  by_cases hu : has_uppercase w = true
  · rw [if_pos hu]
    exact ⟨to_lowercase_ne_nil hne, to_lowercase_not_upper w⟩
  · rw [if_neg hu]
    have hu2 : w.any is_uppercase_char = false := by
      simpa [has_uppercase] using hu
    refine ⟨hne, List.all_eq_true.mpr fun c hc => ?_⟩
    have h2 := List.any_eq_false.mp hu2 c hc
    simpa using h2

theorem tokensOfParts_ok (ps : List (List Nat)) :
    ∀ x ∈ tokensOfParts ps, KeyOk x := by
  induction ps with
  | nil => simp [tokensOfParts]
  | cons p ps ih =>
    intro x hx
    simp only [tokensOfParts] at hx
    by_cases hw : is_word (strip_punct p) = true
    · rw [if_pos hw] at hx
      rcases List.mem_cons.mp hx with h | h
      · rw [h]
        exact normalize_word_ok hw
      · exact ih x h
    · rw [if_neg hw] at hx
      exact ih x hx

theorem tokens_ok (t : List Nat) : ∀ x ∈ tokens t, KeyOk x :=
  tokensOfParts_ok (split_whitespace t)

/-! ## The reachability invariant -/

theorem reachable_inv (b : Bbow) (h : Reachable b) : BagInv b := by
  induction h with
  | new =>
    constructor
    · simp [SortedKeys, Bbow.new]
    · simp [Bbow.new]
  | extend b t hb ih =>
    rw [extend_eq_insertAll]
    constructor
    · exact sorted_insertAll (tokens t) b.counts ih.1
    · exact insertAll_inv KeyOk (tokens t) b.counts ih.2 (tokens_ok t)

theorem length_le_sum (m : List (List Nat × Nat))
    (hm : ∀ e ∈ m, 1 ≤ e.2) : m.length ≤ (m.map Prod.snd).sum := by
  induction m with
  | nil => simp
  | cons e rest ih =>
    have h1 := hm e (by simp)
    have h2 := ih fun e2 he2 => hm e2 (by simp [he2])
    simp only [List.length_cons, List.map_cons, List.sum_cons]
    omega

/-! ## The claims -/

/-- C1 (code_bug): the claim says `match_count` returns 0 for an absent
keyword, and the function's own doc comment promises the same, but the
implementation is `self.0[keyword]`, which panics on an absent key: on the
empty bag, looking up "test" hits the absent-key branch (`none`, the model
of the panic) instead of returning a count of 0. -/
theorem claim_C1 : Bbow.new.match_count (text "test") = none := by decide

/-- C2 (code_bug): the claim (and the crate doc) says all leading and then
all trailing punctuation is stripped however the characters are intermixed,
so the fragment `stop.` followed by an apostrophe (code 39) would yield the
word `stop`. The loop instead trims one punctuation character at a time in
the fixed order `! . , ? / ; : apostrophe`; the trailing apostrophe is
removed only after the pass for `.` is already over, so the fragment is
left as `stop.`, disqualified, and the bag stays empty: `len` is 0 and the
key `stop` is absent. -/
theorem claim_C2 :
    (Bbow.new.extend_from_text (text "stop." ++ [39])).len = 0 ∧
    (Bbow.new.extend_from_text (text "stop." ++ [39])).match_count (text "stop") = none := by
  decide

/-- C3 (corrected), counterexample: the claim as stated — every stored key
consists only of letters and is entirely lowercase — is false of the
program. Ingesting the single caseless CJK letter 中 (19968 + 45 = 20013,
U+4E2D) stores it verbatim as a key that is not lowercase; ingesting the
titlecase letter ǅ (453, U+01C5: alphabetic, but neither uppercase nor
lowercase) likewise stores a non-lowercase key; and ingesting the dotted
İ (304, U+0130: uppercase, so it is lowercased) stores the key
`i` (105) followed by combining dot above (775, U+0307), which is not a
letter — so neither the all-letters part nor the all-lowercase part
survives. -/
theorem claim_C3_counterexample :
    ((Bbow.new.extend_from_text [20013]).counts = [([20013], 1)] ∧
      ([20013] : List Nat).all is_lowercase_char = false) ∧
    ((Bbow.new.extend_from_text [453]).counts = [([453], 1)] ∧
      ([453] : List Nat).all is_lowercase_char = false) ∧
    ((Bbow.new.extend_from_text [304]).counts = [([105, 775], 1)] ∧
      ([105, 775] : List Nat).all is_alphabetic_char = false) := by
  decide

/-- C3 (corrected, amended): every reachable bag stores only non-empty
keys containing no uppercase character, with counts at least 1, and
extending a bag never decreases any key's count. (The original claim's
"only letter characters" and "entirely lowercase" fail on the program:
caseless and titlecase letters are stored verbatim without being
lowercase, and lowercasing `İ` stores a combining mark — see the
counterexample.) -/
theorem claim_C3 (b : Bbow) (h : Reachable b) :
    (∀ k n, (k, n) ∈ b.counts →
      k ≠ [] ∧ k.all (fun c => !is_uppercase_char c) = true ∧ 1 ≤ n) ∧
    (∀ t k, lookupCount b.counts k ≤ lookupCount (b.extend_from_text t).counts k) := by
  have hinv := reachable_inv b h
  constructor
  · intro k n hkn
    have := hinv.2 (k, n) hkn
    exact ⟨this.1.1, this.1.2, this.2⟩
  · intro t k
    rw [extend_eq_insertAll]
    rw [lookupCount_insertAll (tokens t) b.counts k hinv.1]
    omega

theorem claim_C3_witness :
    (text "hello" ≠ [] ∧
      (text "hello").all (fun c => !is_uppercase_char c) = true ∧ 1 ≤ 1) ∧
    lookupCount (Bbow.new.extend_from_text (text "Hello world")).counts (text "hello") ≤
      lookupCount ((Bbow.new.extend_from_text (text "Hello world")).extend_from_text
        (text "Hello")).counts (text "hello") := by
  have h := claim_C3 (Bbow.new.extend_from_text (text "Hello world"))
    (Reachable.extend Bbow.new (text "Hello world") Reachable.new)
  exact ⟨h.1 (text "hello") 1 (by decide), h.2 (text "Hello") (text "hello")⟩

/-- C4 (code_bug): the claim says the query operations perform no I/O, in
particular that `count()` produces no console output; but the loop in
`count()` executes `println!("{}", value)` for every stored value, so on
the bag built from "a" it prints the line `1`: the printed trace is
non-empty. -/
theorem claim_C4 :
    (Bbow.new.extend_from_text (text "a")).count_printed = [1] ∧
    ([1] : List Nat) ≠ [] := by
  decide

/-- C5 (confirmed): `count()` of a text ingested into a new bag equals the
number of qualifying word-fragments of the tokenization (repeats included),
it is 0 on the empty bag, and ingestion adds exactly the number of
qualifying fragments to the previous total (so on every reachable bag the
count is the sum of all stored counts, which is its definition). -/
theorem claim_C5 :
    (∀ t, (Bbow.new.extend_from_text t).count = qualifying_count t) ∧
    Bbow.new.count = 0 ∧
    (∀ (b : Bbow) (t : List Nat),
      (b.extend_from_text t).count = b.count + qualifying_count t) := by
  have hacc : ∀ (b : Bbow) (t : List Nat),
      (b.extend_from_text t).count = b.count + qualifying_count t := by
    intro b t
    rw [extend_eq_insertAll]
    show ((insertAll b.counts (tokens t)).map Prod.snd).sum = _
    rw [sum_insertAll, tokens_length]
    rfl
  refine ⟨?_, rfl, hacc⟩
  intro t
  rw [hacc Bbow.new t]
  simp [Bbow.new, Bbow.count]

/-- C6 (confirmed): on every reachable bag, `words()` lists the stored
keys in strictly ascending byte/code-point lexicographic order (hence each
distinct token exactly once), and on the bag built from
"banana apple cherry" it yields exactly apple, banana, cherry. -/
theorem claim_C6 (b : Bbow) (h : Reachable b) :
    (b.words.Pairwise fun x y => ltKey x y = true) ∧ b.words.Nodup ∧
    (Bbow.new.extend_from_text (text "banana apple cherry")).words =
      [text "apple", text "banana", text "cherry"] := by
  have hs : SortedKeys b.counts := (reachable_inv b h).1
  have hp : b.words.Pairwise fun x y => ltKey x y = true := by
    rw [Bbow.words, List.pairwise_map]
    exact hs
  refine ⟨hp, ?_, by decide⟩
  exact hp.imp fun h2 => ltKey_ne h2

theorem claim_C6_witness :
    (Bbow.new.extend_from_text (text "banana apple cherry")).words.Nodup ∧
    (Bbow.new.extend_from_text (text "banana apple cherry")).words =
      [text "apple", text "banana", text "cherry"] := by
  have h := claim_C6 (Bbow.new.extend_from_text (text "banana apple cherry"))
    (Reachable.extend Bbow.new (text "banana apple cherry") Reachable.new)
  exact ⟨h.2.1, h.2.2⟩

/-- C7 (confirmed): ingesting the same text twice into a new bag gives
every key exactly twice the count it has after one ingestion, and the same
`len()` (no new distinct keys appear). -/
theorem claim_C7 (t : List Nat) :
    (∀ k, lookupCount ((Bbow.new.extend_from_text t).extend_from_text t).counts k =
      2 * lookupCount (Bbow.new.extend_from_text t).counts k) ∧
    ((Bbow.new.extend_from_text t).extend_from_text t).len =
      (Bbow.new.extend_from_text t).len := by
  have hs0 : SortedKeys Bbow.new.counts := by
    simp [SortedKeys, Bbow.new]
  have hs1 : SortedKeys (Bbow.new.extend_from_text t).counts := by
    rw [extend_eq_insertAll]
    exact sorted_insertAll (tokens t) _ hs0
  have h1 : ∀ k, lookupCount (Bbow.new.extend_from_text t).counts k = occCount (tokens t) k := by
    intro k
    rw [extend_eq_insertAll]
    show lookupCount (insertAll Bbow.new.counts (tokens t)) k = _
    rw [lookupCount_insertAll (tokens t) Bbow.new.counts k hs0]
    simp [Bbow.new, lookupCount, lookupKey]
  constructor
  · intro k
    conv_lhs => rw [extend_eq_insertAll]
    show lookupCount (insertAll (Bbow.new.extend_from_text t).counts (tokens t)) k = _
    rw [lookupCount_insertAll (tokens t) _ k hs1, h1 k]
    omega
  · have hks : ∀ x ∈ tokens t, x ∈ (Bbow.new.extend_from_text t).counts.map Prod.fst := by
      intro x hx
      rw [extend_eq_insertAll]
      show x ∈ (insertAll Bbow.new.counts (tokens t)).map Prod.fst
      rw [keys_insertAll]
      exact Or.inr hx
    conv_lhs => rw [extend_eq_insertAll]
    show (insertAll (Bbow.new.extend_from_text t).counts (tokens t)).length = _
    rw [length_insertAll_mem (tokens t) _ hs1 hks]
    rfl

/-- C8 (confirmed): tokens differing only in case collapse to one key:
ingesting "Test test TEST" yields `len() = 1` and
`match_count("test") = 3` (a present key, so the lookup succeeds). -/
theorem claim_C8 :
    (Bbow.new.extend_from_text (text "Test test TEST")).len = 1 ∧
    (Bbow.new.extend_from_text (text "Test test TEST")).match_count (text "test") = some 3 := by
  decide

/-- C9 (confirmed): on every reachable bag the total occurrence count is
at least the number of distinct stored tokens, because every stored count
is at least 1. -/
theorem claim_C9 (b : Bbow) (h : Reachable b) : b.len ≤ b.count := by
  have hinv := reachable_inv b h
  exact length_le_sum b.counts fun e he => (hinv.2 e he).2

theorem claim_C9_witness :
    (Bbow.new.extend_from_text (text "a bb a")).len ≤
      (Bbow.new.extend_from_text (text "a bb a")).count :=
  claim_C9 (Bbow.new.extend_from_text (text "a bb a"))
    (Reachable.extend Bbow.new (text "a bb a") Reachable.new)

/-- C10 (confirmed): on every reachable bag, `match_count` of a token
yielded by `words()` takes the present-key branch (the absent-key panic is
unreachable) and returns a count of at least 1. -/
theorem claim_C10 (b : Bbow) (h : Reachable b) (w : List Nat) (hw : w ∈ b.words) :
    ∃ n, b.match_count w = some n ∧ 1 ≤ n := by
  have hinv := reachable_inv b h
  obtain ⟨n, hn⟩ := lookupKey_isSome (m := b.counts) (k := w) hw
  refine ⟨n, hn, ?_⟩
  exact (hinv.2 (w, n) (lookupKey_mem hn)).2

theorem claim_C10_witness :
    ∃ n, (Bbow.new.extend_from_text (text "zebra")).match_count (text "zebra") = some n ∧ 1 ≤ n :=
  claim_C10 (Bbow.new.extend_from_text (text "zebra"))
    (Reachable.extend Bbow.new (text "zebra") Reachable.new)
    (text "zebra") (by decide)
